import Mathlib

/-!
Shallow embedding of src/buildhelpers/rm_duplicates.py (freedict-tools).

The script deduplicates TEI dictionary entries.  An ElementTree element is
modelled as a rose tree `Node` with a tag (a namespaced string, or the
distinguished comment marker `ET.Comment`, which in Python is a function and
hence not a string), an attribute dictionary (modelled as an association
list; the script only ever reads and deletes the key "n"), an optional text
and an ordered list of children.

Python reference semantics are modelled positionally: a node inside a larger
tree is identified by its path of child indices, and `list.remove(obj)`
(which removes by object identity, Element having no structural equality)
becomes removal at the recorded index.
-/

/-- Tag of an element: an ordinary string tag, or the comment marker
(`ET.Comment`), which is not a string. -/
inductive Tag where
  | str (s : String)
  | comment
  deriving DecidableEq, Repr

/-- An ElementTree element: tag, attributes, optional text, ordered children. -/
inductive Node where
  | mk (tag : Tag) (attrib : List (String × String)) (text : Option String)
      (children : List Node)

/-- The tag of a node. -/
def Node.tag : Node → Tag
  | .mk t _ _ _ => t

/-- The attribute list of a node. -/
def Node.attrib : Node → List (String × String)
  | .mk _ a _ _ => a

/-- The text of a node. -/
def Node.text : Node → Option String
  | .mk _ _ x _ => x

/-- The children of a node. -/
def Node.children : Node → List Node
  | .mk _ _ _ cs => cs

theorem Node.eta (n : Node) : Node.mk n.tag n.attrib n.text n.children = n := by
  cases n
  rfl

/-- Python whitespace characters relevant to `str.strip` (ASCII subset). -/
def pySpace (c : Char) : Bool :=
  c = ' ' || c = '\t' || c = '\n' || c = '\r' || c = '\x0b' || c = '\x0c'

/-- Python `str.strip()` on the underlying character list. -/
def pyStrip (s : String) : String :=
  String.mk (((s.data.dropWhile pySpace).reverse.dropWhile pySpace).reverse)

/-- Python truthiness of `node.text`: `None` and the empty string are falsy. -/
def truthyText : Option String → Bool
  | none => false
  | some s => !(s.data.isEmpty)

/-- The test `node.text is None or node.text.strip() == ''` from
`rm_empty_nodes`. -/
def blankText : Option String → Bool
  | none => true
  | some s => pyStrip s = ""

/-- Python `str.endswith` for string tags. -/
def strEndsWith (s suf : String) : Bool :=
  s.data.reverse.take suf.data.length = suf.data.reverse

/-- The TEI namespace marker prepended by ElementTree to every tag. -/
def teiNS : String := "{http://www.tei-c.org/ns/1.0}"

/-- A namespaced TEI tag, as compared by `findall`/`iter` in the script. -/
def teiTag (name : String) : Tag := .str (teiNS ++ name)

/-- Python `node.get(key)` on the attribute dictionary. -/
def lookupA (key : String) : List (String × String) → Option String
  | [] => none
  | p :: ps => if p.1 = key then some p.2 else lookupA key ps

/-- Python truthiness of `node.get(key)`: present and non-empty. -/
def truthyAttr : Option String → Bool
  | none => false
  | some v => !(v.data.isEmpty)

/-- Python `del node.attrib[key]` (attribute keys are unique in a dict). -/
def delA (key : String) : List (String × String) → List (String × String)
  | [] => []
  | p :: ps => if p.1 = key then delA key ps else p :: delA key ps

mutual

/-- All nodes of the subtree with the given tag, in document (pre)order;
this is `ET.Element.iter(tag)`, which includes the root itself. -/
def iterTag (t : Tag) : Node → List Node
  | .mk tg a x cs => (if tg = t then [Node.mk tg a x cs] else []) ++ iterTagL t cs

/-- `iterTag` mapped over a list of siblings. -/
def iterTagL (t : Tag) : List Node → List Node
  | [] => []
  | c :: cs => iterTag t c ++ iterTagL t cs

end

mutual

/-- All nodes of a subtree in document (pre)order. -/
def preorder : Node → List Node
  | .mk tg a x cs => Node.mk tg a x cs :: preorderL cs

/-- `preorder` mapped over a list of siblings. -/
def preorderL : List Node → List Node
  | [] => []
  | c :: cs => preorder c ++ preorderL cs

end

mutual

/-- Whether a subtree contains a comment node. -/
def hasComment : Node → Bool
  | .mk tg _ _ cs => (tg = Tag.comment) || hasCommentL cs

/-- `hasComment` over a list of siblings. -/
def hasCommentL : List Node → Bool
  | [] => false
  | c :: cs => hasComment c || hasCommentL cs

end

/-- Direct children with their position inside the parent's child list,
filtered by a predicate, starting the count at `k`; this models
`findall` (which matches direct children only) while retaining the
positional identity of each matched child. -/
def idxFilter (p : Node → Bool) : Nat → List Node → List (Nat × Node)
  | _, [] => []
  | k, c :: cs => (if p c then [(k, c)] else []) ++ idxFilter p (k + 1) cs

/-- Children whose position is not in `rem`; models the combined effect of
the `list.remove(obj)` calls performed on a child list, each object being
identified by its original position. -/
def keepIdx (rem : List Nat) : Nat → List Node → List Node
  | _, [] => []
  | k, c :: cs => (if rem.contains k then [] else [c]) ++ keepIdx rem (k + 1) cs

/-- `itertools.combinations(l, 2)` in its order of production. -/
def combinations {α : Type} : List α → List (α × α)
  | [] => []
  | x :: xs => xs.map (fun y => (x, y)) ++ combinations xs

/-!
4.2  rm_doubled_senses.

The Python function builds a dict from each direct `sense` child (an object,
modelled by its position among `entry`'s children) to its signature, pairs
the dict items with `itertools.combinations`, and on an exact signature
match removes the second sense of the pair from the entry, silently
tolerating a `ValueError` when that sense object was already removed.
-/

/-- The signature computed for a sense in `rm_doubled_senses`:
`tuple(q.text.strip() for q in tei_iter(sense, 'quote') if q.text)`.
Note that the filter is on raw truthiness of the text, before stripping. -/
def signature (sense : Node) : List String :=
  ((iterTag (teiTag "quote") sense).filter (fun q => truthyText q.text)).map
    (fun q => pyStrip (q.text.getD ""))

/-- The pairwise comparison loop of `rm_doubled_senses`, over combinations of
(position, signature) pairs.  State: positions removed so far and the
`changed` flag.  A removal of an already-removed sense raises `ValueError`,
which the script catches and ignores. -/
def senseFold :
    List ((Nat × List String) × (Nat × List String)) → List Nat → Bool →
      List Nat × Bool
  | [], rem, ch => (rem, ch)
  | (s1, s2) :: ps, rem, ch =>
    if s1.2.length = s2.2.length then
      if (List.zip s1.2 s2.2).all (fun e => e.1 = e.2) then
        if rem.contains s2.1 then senseFold ps rem ch
        else senseFold ps (s2.1 :: rem) true
      else senseFold ps rem ch
    else senseFold ps rem ch

/-- Rebuild the entry after the sense removals: original children minus the
removed positions. -/
def applySenseRemovals (e : Node) (rem : List Nat) : Node :=
  Node.mk e.tag e.attrib e.text (keepIdx rem 0 e.children)

/-- The direct `sense` children of an entry with their positions
(`findall(entry, 'sense')`). -/
def senseIdx (e : Node) : List (Nat × Node) :=
  idxFilter (fun n => n.tag = teiTag "sense") 0 e.children

/-- The direct `sense` children of an entry (without positions). -/
def senseNodes (e : Node) : List Node :=
  e.children.filter (fun n => n.tag = teiTag "sense")

/-- The (position, signature) pairs handed to the comparison loop. -/
def senseSigs (e : Node) : List (Nat × List String) :=
  (senseIdx e).map (fun p => (p.1, signature p.2))

/-- The final state of the comparison loop of `rm_doubled_senses`. -/
def senseFoldOut (e : Node) : List Nat × Bool :=
  senseFold (combinations (senseSigs e)) [] false

/-- `rm_doubled_senses(entry)`.  Returns the mutated entry together with the
Python return value: `none` models the bare `return` (Python `None`) taken
when there is exactly one sense child, `some b` models returning the
boolean `changed`. -/
def rm_doubled_senses (e : Node) : Node × Option Bool :=
  if (senseIdx e).length = 1 then (e, none)
  else
    let out := senseFoldOut e
    (applySenseRemovals e out.1, some out.2)

/-!
4.3  rm_doubled_quotes.

The Python function collects `(cit, quote)` pairs where `cit` ranges over the
direct `cit` children of each direct `sense` child of the entry and `quote`
over the direct `quote` children of that cit (`findall` matches direct
children only).  Each collected quote object is modelled as a `QItem`
recording the positions of its sense, cit and quote, its raw text, and its
position `idx` in the collected list.
-/

/-- One collected `(cit, quote)` pair of `rm_doubled_quotes`. -/
structure QItem where
  sIdx : Nat
  cIdx : Nat
  qIdx : Nat
  text : Option String
  idx : Nat
  deriving DecidableEq, Repr

/-- The cit identity of an item: `cit1 is cit2` compares these paths. -/
def citP (it : QItem) : Nat × Nat := (it.sIdx, it.cIdx)

/-- Attach collection positions to the raw collected tuples. -/
def withIdx : Nat → List (Nat × Nat × Nat × Option String) → List QItem
  | _, [] => []
  | k, (s, c, q, t) :: r => ⟨s, c, q, t, k⟩ :: withIdx (k + 1) r

/-- The raw collected tuples of `rm_doubled_quotes`, in document order:
direct `cit` children of direct `sense` children, then direct `quote`
children of those cits. -/
def collectRaw (e : Node) : List (Nat × Nat × Nat × Option String) :=
  (idxFilter (fun n => n.tag = teiTag "sense") 0 e.children).flatMap (fun si =>
    (idxFilter (fun n => n.tag = teiTag "cit") 0 si.2.children).flatMap (fun ci =>
      (idxFilter (fun n => n.tag = teiTag "quote") 0 ci.2.children).map (fun qi =>
        (si.1, ci.1, qi.1, qi.2.text))))

/-- The collected `(cit, quote)` pairs of `rm_doubled_quotes`, with their
collection positions. -/
def collectItems (e : Node) : List QItem :=
  withIdx 0 (collectRaw e)

/-- State of the pairwise quote comparison: quote objects removed so far and
the `changed` flag. -/
structure QState where
  removed : List QItem
  changed : Bool
  deriving DecidableEq, Repr

/-- `not cit.findall(quote_tag)` at the current state: every quote child of
the cit at path `cp` has been removed.  All quote children of a collected
cit are themselves collected, so they are exactly the items with that cit
path. -/
def noLive (items rem : List QItem) (cp : Nat × Nat) : Bool :=
  items.all (fun it => !(citP it = cp : Bool) || rem.contains it)

/-- One iteration of the comparison loop of `rm_doubled_quotes` on the pair
`(a, b)`.  The skip condition is, with Python operator precedence,
`(not cit1.findall(tag)) or ((not cit2.findall(tag)) and cit1 is not cit2)`.
When the texts compare equal, `cit2.remove(quote2)` raises an uncaught
`ValueError` if the quote object is no longer in its cit. -/
def quoteStep (items : List QItem) (s : QState) (a b : QItem) :
    Except String QState :=
  if noLive items s.removed (citP a) ||
      (noLive items s.removed (citP b) && !(citP a = citP b : Bool)) then
    .ok s
  else if a.text = b.text then
    if s.removed.contains b then
      .error "ValueError: list.remove(x): x not in list"
    else .ok ⟨b :: s.removed, true⟩
  else .ok s

/-- The comparison loop of `rm_doubled_quotes` over a list of pairs. -/
def quoteFold (items : List QItem) :
    List (QItem × QItem) → QState → Except String QState
  | [], s => .ok s
  | (a, b) :: ps, s =>
    match quoteStep items s a b with
    | .error m => .error m
    | .ok s1 => quoteFold items ps s1

/-- The final state of the comparison loop of `rm_doubled_quotes`. -/
def quoteFoldOut (e : Node) : Except String QState :=
  quoteFold (collectItems e) (combinations (collectItems e)) ⟨[], false⟩

/-- Children of a cit minus its removed quote positions. -/
def keepQ (rem : List QItem) (si ci : Nat) : Nat → List Node → List Node
  | _, [] => []
  | k, c :: cs =>
    (if rem.any (fun r => r.sIdx = si && r.cIdx = ci && r.qIdx = k) then []
     else [c]) ++ keepQ rem si ci (k + 1) cs

/-- Positional map over a child list. -/
def mapIdx (f : Nat → Node → Node) : Nat → List Node → List Node
  | _, [] => []
  | k, c :: cs => f k c :: mapIdx f (k + 1) cs

/-- Rebuild the entry after the quote removals.  Removed items address quote
children by their (sense position, cit position, quote position) path, so
the rebuild filters exactly those positions and is the identity
elsewhere. -/
def applyQuoteRemovals (e : Node) (rem : List QItem) : Node :=
  Node.mk e.tag e.attrib e.text
    (mapIdx (fun si s =>
      Node.mk s.tag s.attrib s.text
        (mapIdx (fun ci c =>
          Node.mk c.tag c.attrib c.text (keepQ rem si ci 0 c.children))
          0 s.children))
      0 e.children)

/-- `rm_doubled_quotes(entry)`.  Returns `.error` when the uncaught
`ValueError` escapes; otherwise the mutated entry together with the Python
return value (`none` models the bare `return` taken when at most one pair
was collected). -/
def rm_doubled_quotes (e : Node) : Except String (Node × Option Bool) :=
  if (collectItems e).length ≤ 1 then .ok (e, none)
  else
    match quoteFoldOut e with
    | .error m => .error m
    | .ok s => .ok (applyQuoteRemovals e s.removed, some s.changed)

/-!
4.4  rm_empty_nodes.

The Python function performs, twice, a breadth-first worklist traversal of
the entry subtree: it strips the manual enumeration attribute `n` from nodes
whose tag ends in "sense", removes from its parent every node with blank
text and no children, and only enqueues the children of nodes that were not
removed.  During one traversal a node's child list is only mutated after the
node itself has been dequeued (children are removed strictly after their
parent was processed), so every dequeued node sees its child list as it was
at the start of the pass, and the per-node decisions depend only on the
pass-start tree.  A single pass is therefore equivalent to the structural
recursion below; an error raised anywhere aborts the call in both
formulations (a node that is removed has no children, so every comment in
the subtree is dequeued, and the worklist visits exactly the nodes this
recursion visits).  Two sources of exceptions exist: `node.tag.endswith` on
a comment node (whose tag is not a string, so `AttributeError`), and
`parent.remove(node)` when the traversal root itself is empty (its recorded
parent is `None`, so `AttributeError`).
-/

/-- Error raised when `endswith` is called on a comment tag. -/
def attrErr : String := "AttributeError: tag is not a string"

/-- Error raised when the traversal root itself is empty and
`None.remove(node)` is attempted. -/
def noneErr : String := "AttributeError: NoneType has no attribute remove"

mutual

/-- Process one non-root node of a pass of `rm_empty_nodes`: strip the `n`
attribute of sense-tagged nodes, drop the node when it has blank text and
no children, otherwise recurse into its children.  Returns the surviving
node (if any) and whether anything changed. -/
def visitNode : Node → Except String (Option Node × Bool)
  | .mk tg a x cs =>
    match tg with
    | .comment => .error attrErr
    | .str tgs =>
      let doStrip := strEndsWith tgs "sense" && truthyAttr (lookupA "n" a)
      let a1 := if doStrip then delA "n" a else a
      if blankText x && cs.isEmpty then .ok (none, true)
      else
        match visitList cs with
        | .error m => .error m
        | .ok (cs1, ch) => .ok (some (.mk (.str tgs) a1 x cs1), doStrip || ch)

/-- Process a list of siblings, concatenating the survivors. -/
def visitList : List Node → Except String (List Node × Bool)
  | [] => .ok ([], false)
  | c :: cs =>
    match visitNode c with
    | .error m => .error m
    | .ok (oc, ch1) =>
      match visitList cs with
      | .error m => .error m
      | .ok (cs1, ch2) => .ok (oc.toList ++ cs1, ch1 || ch2)

end

/-- One pass of `rm_empty_nodes` over the entry.  The root is processed with
parent `None`: if it is itself empty, `None.remove` raises. -/
def emptyPass : Node → Except String (Node × Bool)
  | .mk tg a x cs =>
    match tg with
    | .comment => .error attrErr
    | .str tgs =>
      let doStrip := strEndsWith tgs "sense" && truthyAttr (lookupA "n" a)
      let a1 := if doStrip then delA "n" a else a
      if blankText x && cs.isEmpty then .error noneErr
      else
        match visitList cs with
        | .error m => .error m
        | .ok (cs1, ch) => .ok (.mk (.str tgs) a1 x cs1, doStrip || ch)

/-- `rm_empty_nodes(entry)`: `for _ in range(0, 2)` runs exactly two passes;
the `changed` flag accumulates across them. -/
def rm_empty_nodes (e : Node) : Except String (Node × Bool) :=
  match emptyPass e with
  | .error m => .error m
  | .ok p1 =>
    match emptyPass p1.1 with
    | .error m => .error m
    | .ok p2 => .ok (p2.1, p1.2 || p2.2)

/-- The removal condition of `rm_empty_nodes`: no non-whitespace text and no
children. -/
def isEmptyNode (n : Node) : Bool :=
  blankText n.text && n.children.isEmpty

mutual

/-- Every proper descendant of the node is non-empty. -/
def descOk : Node → Bool
  | .mk _ _ _ cs => descOkL cs

/-- Every node of the forest, and every proper descendant of one, is
non-empty. -/
def descOkL : List Node → Bool
  | [] => true
  | c :: cs => (!isEmptyNode c && descOk c) && descOkL cs

end

/-- The subtree has no great-grandchildren: children and grandchildren
only. -/
def heightLe2 (e : Node) : Bool :=
  e.children.all (fun c => c.children.all (fun g => g.children.isEmpty))

/-- Whether an `Except` result is a success. -/
def okB {α : Type} : Except String α → Bool
  | .ok _ => true
  | .error _ => false

/-!
4.5  The orchestrator (`main`).
-/

/-- Python truthiness of a reducer's return value (`None` is falsy). -/
def truthyOpt : Option Bool → Bool
  | none => false
  | some b => b

/-- One iteration of the entry loop of `main`: the three reducers in order,
with their truthiness flags. -/
def processEntry (e : Node) : Except String (Node × Bool × Bool × Bool) :=
  let r1 := rm_doubled_senses e
  match rm_doubled_quotes r1.1 with
  | .error m => .error m
  | .ok p2 =>
    match rm_empty_nodes p2.1 with
    | .error m => .error m
    | .ok p3 => .ok (p3.1, truthyOpt r1.2, truthyOpt p2.2, p3.2)

/-- Outcome of the entry loop of `main`: either the detect-only early exit
with status 42 (no output file is written in this case; the loop stops at
the triggering entry, already mutated in memory, with the remaining
entries unprocessed), or normal completion with the aggregated `changed`
flag (an output file is written exactly when that flag is true). -/
inductive RunOutcome where
  | exit42 (entries : List Node)
  | done (entries : List Node) (changed : Bool)

/-- The entry loop of `main` over the document's entries in document order.
`acc` is the aggregated `changed` flag.  In detect-only mode the loop
stops with exit status 42 right after the first entry any of whose three
reducer calls returned a truthy value. -/
def mainLoop (detect : Bool) (acc : Bool) : List Node → Except String RunOutcome
  | [] => .ok (.done [] acc)
  | e :: es =>
    match processEntry e with
    | .error m => .error m
    | .ok q =>
      if detect && (q.2.1 || q.2.2.1 || q.2.2.2) then .ok (.exit42 (q.1 :: es))
      else
        match mainLoop detect (acc || q.2.1 || q.2.2.1 || q.2.2.2) es with
        | .error m => .error m
        | .ok (.exit42 l) => .ok (.exit42 (q.1 :: l))
        | .ok (.done l ch) => .ok (.done (q.1 :: l) ch)

/-!
Induction principle for the nested tree type, and concrete example inputs
used by the claim analyses.
-/

mutual

/-- Structural induction over a node, with a motive for sibling lists. -/
def nodeInd {P : Node → Prop} {Q : List Node → Prop} (hnil : Q [])
    (hcons : ∀ c cs, P c → Q cs → Q (c :: cs))
    (hmk : ∀ t a x cs, Q cs → P (.mk t a x cs)) : ∀ n, P n
  | .mk t a x cs => hmk t a x cs (listInd hnil hcons hmk cs)

/-- Structural induction over a sibling list. -/
def listInd {P : Node → Prop} {Q : List Node → Prop} (hnil : Q [])
    (hcons : ∀ c cs, P c → Q cs → Q (c :: cs))
    (hmk : ∀ t a x cs, Q cs → P (.mk t a x cs)) : ∀ l, Q l
  | [] => hnil
  | c :: cs => hcons c cs (nodeInd hnil hcons hmk c) (listInd hnil hcons hmk cs)

end

/-- Example element with a TEI tag, no attributes, no text. -/
def elemN (t : String) (cs : List Node) : Node := .mk (teiTag t) [] none cs

/-- Example leaf element with a TEI tag and a text. -/
def elemT (t : String) (x : String) : Node := .mk (teiTag t) [] (some x) []

/-- Example comment node as built by `CommentedTreeBuilder.comment`. -/
def commentNode (x : String) : Node := .mk Tag.comment [] (some x) []

/-!
Claim C1 (idempotence of the reducer pipeline): counterexample input.
A chain of empty nodes three levels deep: the two passes of
`rm_empty_nodes` remove only the two deepest levels, so the second
application of the pipeline still reports a change.
-/

/-- C1 counterexample input: entry with a headword and an empty chain
gramGrp > gram > pos. -/
def claim1entry : Node :=
  elemN "entry" [elemT "form" "hw", elemN "gramGrp" [elemN "gram" [elemN "pos" []]]]

/-- C1: the entry after the first application of the pipeline. -/
def claim1mid : Node :=
  elemN "entry" [elemT "form" "hw", elemN "gramGrp" []]

/-- C1: the entry after the second application of the pipeline. -/
def claim1out : Node :=
  elemN "entry" [elemT "form" "hw"]

/-- Claim C1, counterexample: the reducer pipeline is not idempotent.  On
`claim1entry` the first application reports a change (`rm_empty_nodes`
returns true) and leaves an empty `gramGrp` behind, and the second
application again reports a change, removing it. -/
theorem claim1_cx :
    processEntry claim1entry = .ok (claim1mid, false, false, true) ∧
    processEntry claim1mid = .ok (claim1out, false, false, true) :=
  ⟨rfl, rfl⟩

/-!
Claim C2 (no empty non-root node after rm_empty_nodes): counterexample
input, of the same three-deep shape.
-/

/-- C2 counterexample input. -/
def claim2entry : Node :=
  elemN "entry" [elemT "form" "w", elemN "gramGrp" [elemN "gram" [elemN "pos" []]]]

/-- C2: the empty node left behind by the two passes. -/
def claim2leftover : Node := elemN "gramGrp" []

/-- Claim C2, counterexample: after the two passes of `rm_empty_nodes` on
`claim2entry`, the non-root node `claim2leftover` is still in the tree
and has blank text and no children (the third nesting level is not
cascaded). -/
theorem claim2_cx :
    rm_empty_nodes claim2entry =
      .ok (Node.mk (teiTag "entry") [] none [elemT "form" "w", claim2leftover], true) ∧
    isEmptyNode claim2leftover = true :=
  ⟨rfl, rfl⟩

/-!
Claim C3 (the signature excludes whitespace-only quote texts): the claimed
signature, the amended signature, and the counterexample.
-/

/-- The signature as the claim states it (a second definition following the
spec's words, for comparison): ordered trimmed texts of all quotes
anywhere beneath the sense, excluding quotes whose text is empty or
consists only of whitespace. -/
def signatureClaimed (sense : Node) : List String :=
  (preorder sense).filterMap (fun n =>
    if n.tag = teiTag "quote" then
      match n.text with
      | none => none
      | some t => if pyStrip t = "" then none else some (pyStrip t)
    else none)

/-- The signature as amended: ordered trimmed texts of all quotes anywhere
beneath the sense, excluding only quotes whose text is absent or is the
empty string; a whitespace-only text is kept and contributes the empty
string after trimming. -/
def signatureAmended (sense : Node) : List String :=
  (preorder sense).filterMap (fun n =>
    if n.tag = teiTag "quote" then
      match n.text with
      | none => none
      | some t => if t = "" then none else some (pyStrip t)
    else none)

/-- C3 counterexample input: a sense holding one quote whose text is a
single space. -/
def claim3sense : Node := elemN "sense" [elemN "cit" [elemT "quote" " "]]

/-- Claim C3, counterexample: on a sense with a whitespace-only quote the
computed signature contains the empty string, while the claimed
signature excludes the quote, so the two differ. -/
theorem claim3_cx :
    signature claim3sense = [""] ∧ signatureClaimed claim3sense = [] :=
  ⟨rfl, rfl⟩

/-!
Claim C4 (collection of (cit, quote) pairs at any depth): counterexample
input.  `findall` matches direct children only, so a cit nested below an
intermediate element is not collected.
-/

/-- C4 counterexample input: the second sense holds its cit inside a
`gramGrp`, with a quote text equal to the first sense's quote. -/
def claim4entry : Node :=
  elemN "entry"
    [elemN "sense" [elemN "cit" [elemT "quote" "x"]],
     elemN "sense" [elemN "gramGrp" [elemN "cit" [elemT "quote" "x"]]]]

/-- Claim C4, counterexample: `claim4entry` has two quotes with exactly equal
texts, but the nested cit of the second sense is not collected (only one
item is collected), so `rm_doubled_quotes` removes nothing and takes the
no-op return. -/
theorem claim4_cx :
    (iterTag (teiTag "quote") claim4entry).length = 2 ∧
    (collectItems claim4entry).length = 1 ∧
    rm_doubled_quotes claim4entry = .ok (claim4entry, none) :=
  ⟨rfl, rfl, rfl⟩

/-!
Claim C5 (already-removed removals are swallowed silently): failing input
for `rm_doubled_quotes`.  The pair (q2, q3) below passes the skip guard
(both owning cits still hold another quote), `q3` was already removed by
the earlier pair (q1, q3), and `cit3.remove(q3)` raises an uncaught
`ValueError`.
-/

/-- C5 failing input: three senses with quotes
["x"], ["x", "e"], ["x", "f"]. -/
def claim5entry : Node :=
  elemN "entry"
    [elemN "sense" [elemN "cit" [elemT "quote" "x"]],
     elemN "sense" [elemN "cit" [elemT "quote" "x", elemT "quote" "e"]],
     elemN "sense" [elemN "cit" [elemT "quote" "x", elemT "quote" "f"]]]

/-- Claim C5: contrary to the claim (and to the script's own comment
"could have been removed already, so check"), `rm_doubled_quotes` raises
an uncaught `ValueError` on `claim5entry`: the removal of the third "x"
quote is attempted a second time by a pair that the stale guard fails to
skip. -/
theorem claim5_code_bug_eval :
    rm_doubled_quotes claim5entry =
      .error "ValueError: list.remove(x): x not in list" :=
  rfl

/-!
Claim C7 (the reducers return a boolean): counterexample input.
-/

/-- C7 counterexample input: an entry with exactly one sense child. -/
def claim7entry : Node := elemN "entry" [elemN "sense" [elemN "cit" [elemT "quote" "a"]]]

/-- Claim C7, counterexample: on an entry with exactly one sense child,
`rm_doubled_senses` takes the bare `return` and yields Python `None`
(modelled as `none`), not a boolean. -/
theorem claim7_cx :
    (rm_doubled_senses claim7entry).2 = none ∧
    (rm_doubled_senses claim7entry).2 ≠ some false ∧
    (rm_doubled_senses claim7entry).2 ≠ some true :=
  ⟨rfl, by decide, by decide⟩

/-!
Claim C9 (detect-only mode exits with status 42 at the first triggering
entry): counterexample input.  An entry that triggers `rm_doubled_senses`
but whose comment child makes `rm_empty_nodes` raise: the run dies with an
exception instead of exiting 42.
-/

/-- C9 counterexample input: a duplicate pair of senses plus a comment. -/
def claim9entry : Node :=
  Node.mk (teiTag "entry") [] none
    [elemN "sense" [elemN "cit" [elemT "quote" "a"]],
     elemN "sense" [elemN "cit" [elemT "quote" "a"]],
     commentNode " note "]

/-- Claim C9, counterexample: `claim9entry` triggers `rm_doubled_senses`
(a sense is removed in memory), yet the detect-only run raises an
`AttributeError` out of `rm_empty_nodes` instead of stopping with exit
status 42. -/
theorem claim9_cx :
    (rm_doubled_senses claim9entry).2 = some true ∧
    mainLoop true false [claim9entry] =
      .error "AttributeError: tag is not a string" :=
  ⟨rfl, rfl⟩

/-- `iter(tag)` lists exactly the preorder nodes carrying that tag. -/
theorem iterTag_eq_preorder_filter (t : Tag) :
    ∀ n, iterTag t n = (preorder n).filter (fun m => decide (m.tag = t)) := by
  apply nodeInd (P := fun n => iterTag t n = (preorder n).filter (fun m => decide (m.tag = t)))
    (Q := fun l => iterTagL t l = (preorderL l).filter (fun m => decide (m.tag = t)))
  · rfl
  · intro c cs hc hcs
    simp [iterTagL, preorderL, List.filter_append, hc, hcs]
  · intro tg a x cs hcs
    by_cases h : tg = t
    · simp [iterTag, preorder, Node.tag, h, hcs]
    · simp [iterTag, preorder, Node.tag, h, hcs]

/-- A double filter followed by a map is a single filterMap. -/
theorem filter_filter_map_eq_filterMap {α β : Type} (p q : α → Bool) (f : α → β)
    (l : List α) :
    ((l.filter p).filter q).map f =
      l.filterMap (fun x => if p x then (if q x then some (f x) else none) else none) := by
  induction l with
  | nil => rfl
  | cons x xs ih =>
    rw [List.filter_cons, List.filterMap_cons]
    by_cases hp : p x
    · rw [if_pos hp, if_pos hp, List.filter_cons]
      by_cases hq : q x
      · rw [if_pos hq, if_pos hq, List.map_cons, ih]
      · rw [if_neg hq, if_neg hq, ih]
    · rw [if_neg hp, if_neg hp, ih]

/-- A string's character list is empty exactly when it is the empty
string. -/
theorem string_data_nil_iff (s : String) : s.data.isEmpty = true ↔ s = "" := by
  constructor
  · intro h
    cases s with
    | mk d => cases d with
      | nil => rfl
      | cons c cs => simp [List.isEmpty] at h
  · intro h
    subst h
    rfl

/-- Claim C3 (amended): the signature that `rm_doubled_senses` computes for a
sense is the ordered sequence of trimmed texts of all quote nodes anywhere
beneath the sense, where a quote is excluded only when its text is absent
or is the empty string; a whitespace-only text is included and contributes
the empty string after trimming. -/
theorem claim3_amended_thm (s : Node) : signature s = signatureAmended s := by
  unfold signature signatureAmended
  rw [iterTag_eq_preorder_filter, filter_filter_map_eq_filterMap]
  apply List.filterMap_congr
  intro x hx
  by_cases ht : x.tag = teiTag "quote"
  · simp only [ht, decide_True, if_true]
    cases hx2 : x.text with
    | none => simp [truthyText]
    | some t =>
      by_cases he : t = ""
      · subst he
        simp [truthyText]
      · have hne : t.data.isEmpty = false := by
          cases hb : t.data.isEmpty
          · rfl
          · exact absurd ((string_data_nil_iff t).mp hb) he
        simp [truthyText, hne, he]
  · simp [ht]

/-- A list with a comment in it is non-empty. -/
theorem hasCommentL_ne_nil {l : List Node} (h : hasCommentL l = true) : l ≠ [] := by
  intro he
  subst he
  simp [hasCommentL] at h

/-- A pass visit of a subtree containing a comment raises: the comment node
itself is reached (every node on the way to it has children, hence is
never removed without its children being visited) and
`node.tag.endswith` fails on its non-string tag. -/
theorem visit_comment_err :
    ∀ n, hasComment n = true → okB (visitNode n) = false := by
  apply nodeInd (P := fun n => hasComment n = true → okB (visitNode n) = false)
    (Q := fun l => hasCommentL l = true → okB (visitList l) = false)
  · intro h
    simp [hasCommentL] at h
  · intro c cs hc hcs h
    rw [hasCommentL] at h
    rcases Bool.or_eq_true _ _ |>.mp h with h1 | h2
    · have := hc h1
      unfold visitList
      cases hv : visitNode c with
      | error m => simp [okB]
      | ok r =>
        rw [hv] at this
        simp [okB] at this
    · unfold visitList
      cases hv : visitNode c with
      | error m => simp [okB]
      | ok r =>
        have := hcs h2
        cases hv2 : visitList cs with
        | error m => simp [okB]
        | ok r2 =>
          rw [hv2] at this
          simp [okB] at this
  · intro t a x cs hcs h
    rw [hasComment] at h
    rcases Bool.or_eq_true _ _ |>.mp h with h1 | h2
    · have ht : t = Tag.comment := of_decide_eq_true h1
      subst ht
      simp [visitNode, okB]
    · cases t with
      | comment => simp [visitNode, okB]
      | str s =>
        have hne : cs ≠ [] := hasCommentL_ne_nil h2
        have hie : cs.isEmpty = false := by
          cases cs
          · exact absurd rfl hne
          · rfl
        have := hcs h2
        unfold visitNode
        rw [hie]
        simp only [Bool.and_false, if_false]
        cases hv : visitList cs with
        | error m => simp [okB]
        | ok r =>
          rw [hv] at this
          simp [okB] at this

/-- One pass of `rm_empty_nodes` on a subtree containing a comment raises. -/
theorem emptyPass_comment_err (e : Node) (h : hasComment e = true) :
    okB (emptyPass e) = false := by
  cases e with
  | mk t a x cs =>
    rw [hasComment] at h
    rcases Bool.or_eq_true _ _ |>.mp h with h1 | h2
    · have ht : t = Tag.comment := of_decide_eq_true h1
      subst ht
      simp [emptyPass, okB]
    · cases t with
      | comment => simp [emptyPass, okB]
      | str s =>
        have hne : cs ≠ [] := hasCommentL_ne_nil h2
        have hie : cs.isEmpty = false := by
          cases cs
          · exact absurd rfl hne
          · rfl
        have hv := visit_comment_err (Node.mk (Tag.str s) a x cs)
        simp only [emptyPass, hie, Bool.and_false, if_false]
        cases hv2 : visitList cs with
        | error m => simp [okB]
        | ok r =>
          exfalso
          have h3 : hasComment (Node.mk (Tag.str s) a x cs) = true := by
            rw [hasComment]
            simp [h2]
          have := hv h3
          unfold visitNode at this
          rw [hie] at this
          simp only [Bool.and_false, if_false] at this
          rw [hv2] at this
          simp [okB] at this

/-- Claim C10: on every entry whose subtree contains a comment node,
`rm_empty_nodes` raises an exception instead of completing: the comment's
tag is not a string, and the sense-enumeration check applies `endswith`
to every traversed node's tag. -/
theorem claim10_thm (e : Node) (h : hasComment e = true) :
    okB (rm_empty_nodes e) = false := by
  have h1 := emptyPass_comment_err e h
  unfold rm_empty_nodes
  cases hp : emptyPass e with
  | error m => simp [okB]
  | ok r =>
    rw [hp] at h1
    simp [okB] at h1

/-- C10 witness input: an entry with a headword and a comment child. -/
def claim10entry : Node :=
  Node.mk (teiTag "entry") [] none [elemT "form" "hw", commentNode "c"]

/-- Claim C10, witness: the theorem applied to the concrete commented
entry. -/
theorem claim10_witness :
    hasComment claim10entry = true ∧ okB (rm_empty_nodes claim10entry) = false :=
  ⟨rfl, claim10_thm claim10entry rfl⟩

/-- Filtering the survivors of positional removals equals filtering the
positional enumeration and dropping the removed positions. -/
theorem keepIdx_filter (p : Node → Bool) (rem : List Nat) :
    ∀ (l : List Node) (k : Nat),
      (keepIdx rem k l).filter p =
        ((idxFilter p k l).filter (fun q => !rem.contains q.1)).map Prod.snd := by
  intro l
  induction l with
  | nil => intro k; rfl
  | cons c cs ih =>
    intro k
    rw [keepIdx, idxFilter]
    by_cases hm : k ∈ rem
    · by_cases hp : p c
      · simp [hm, hp, ih]
      · simp [hm, hp, ih]
    · by_cases hp : p c
      · simp [hm, hp, ih]
      · simp [hm, hp, ih]

/-- Positions produced by `idxFilter` are at least the start index. -/
theorem idxFilter_ge (p : Node → Bool) :
    ∀ (l : List Node) (k : Nat) (q : Nat × Node), q ∈ idxFilter p k l → k ≤ q.1 := by
  intro l
  induction l with
  | nil => intro k q hq; simp [idxFilter] at hq
  | cons c cs ih =>
    intro k q hq
    rw [idxFilter] at hq
    by_cases hp : p c
    · simp [hp] at hq
      rcases hq with h1 | h2
      · subst h1; rfl
      · exact Nat.le_of_succ_le (ih (k + 1) q h2)
    · simp [hp] at hq
      exact Nat.le_of_succ_le (ih (k + 1) q hq)

/-- Positions produced by `idxFilter` are strictly increasing. -/
theorem idxFilter_pairwise (p : Node → Bool) :
    ∀ (l : List Node) (k : Nat),
      (idxFilter p k l).Pairwise (fun a b => a.1 < b.1) := by
  intro l
  induction l with
  | nil => intro k; simp [idxFilter]
  | cons c cs ih =>
    intro k
    rw [idxFilter]
    by_cases hp : p c
    · simp only [hp, if_true]
      refine List.Pairwise.cons ?_ (ih (k + 1))
      intro q hq
      exact Nat.lt_of_succ_le (idxFilter_ge p cs (k + 1) q hq)
    · simp only [hp, if_false, List.nil_append]
      exact ih (k + 1)

/-- Forgetting the positions of `idxFilter` yields a plain filter. -/
theorem idxFilter_map_snd (p : Node → Bool) :
    ∀ (l : List Node) (k : Nat), (idxFilter p k l).map Prod.snd = l.filter p := by
  intro l
  induction l with
  | nil => intro k; rfl
  | cons c cs ih =>
    intro k
    rw [idxFilter, List.filter_cons]
    by_cases hp : p c
    · simp [hp, ih]
    · simp [hp, ih]

/-- The elementwise comparison of a list zipped with itself succeeds. -/
theorem zip_self_all (G : List String) :
    (List.zip G G).all (fun e => decide (e.1 = e.2)) = true := by
  induction G with
  | nil => rfl
  | cons g gs ih => simp [List.zip, ih]

/-- Claim C6: on an entry with exactly two sense children whose signatures
are equal, `rm_doubled_senses` leaves exactly the first-seen sense in the
entry and returns True. -/
theorem claim6_thm (e s1 s2 : Node)
    (hs : senseNodes e = [s1, s2]) (hsig : signature s1 = signature s2) :
    senseNodes (rm_doubled_senses e).1 = [s1] ∧
    (rm_doubled_senses e).2 = some true := by
  have hmap : (senseIdx e).map Prod.snd = [s1, s2] := by
    rw [senseIdx, idxFilter_map_snd]
    exact hs
  have hlen : (senseIdx e).length = 2 := by
    have := congrArg List.length hmap
    simpa using this
  obtain ⟨a, b, hab⟩ : ∃ a b, senseIdx e = [a, b] := by
    cases hse : senseIdx e with
    | nil => rw [hse] at hlen; simp at hlen
    | cons a t =>
      cases t with
      | nil => rw [hse] at hlen; simp at hlen
      | cons b t2 =>
        cases t2 with
        | nil => exact ⟨a, b, rfl⟩
        | cons c t3 => rw [hse] at hlen; simp at hlen
  have hm2 := hmap
  rw [hab] at hm2
  simp only [List.map_cons, List.map_nil, List.cons.injEq, and_true] at hm2
  have ha2 : a.2 = s1 := hm2.1
  have hb2 : b.2 = s2 := hm2.2
  have hij : a.1 < b.1 := by
    have hp := idxFilter_pairwise (fun n => decide (n.tag = teiTag "sense")) e.children 0
    rw [show idxFilter (fun n => decide (n.tag = teiTag "sense")) 0 e.children = senseIdx e from rfl, hab] at hp
    exact (List.pairwise_cons.mp hp).1 b (by simp)
  have hne : ¬(senseIdx e).length = 1 := by rw [hlen]; decide
  have hsigs : senseSigs e = [(a.1, signature s1), (b.1, signature s2)] := by
    rw [senseSigs, hab, List.map_cons, List.map_cons, List.map_nil, ha2, hb2]
  have hcomb : combinations (senseSigs e) =
      [((a.1, signature s1), (b.1, signature s2))] := by
    rw [hsigs]
    rfl
  have hfold : senseFoldOut e = ([b.1], true) := by
    rw [senseFoldOut, hcomb, ← hsig]
    rw [senseFold]
    simp only [if_pos rfl, zip_self_all, if_true]
    rw [if_neg (by simp)]
    rfl
  have hrm : rm_doubled_senses e = (applySenseRemovals e [b.1], some true) := by
    rw [rm_doubled_senses, if_neg hne, hfold]
  rw [hrm]
  constructor
  · show (keepIdx [b.1] 0 e.children).filter _ = [s1]
    rw [keepIdx_filter]
    rw [show idxFilter (fun n => decide (n.tag = teiTag "sense")) 0 e.children = senseIdx e from rfl, hab]
    have hne2 : a.1 ≠ b.1 := Nat.ne_of_lt hij
    simp [List.filter_cons, hne2, ha2]
  · rfl

/-- C6 witness input: first sense of the pair. -/
def claim6sense1 : Node := elemN "sense" [elemN "cit" [elemT "quote" " hello "]]

/-- C6 witness input: second sense, with a structurally different quote text
that trims to the same signature. -/
def claim6sense2 : Node := elemN "sense" [elemN "cit" [elemT "quote" "hello  "]]

/-- C6 witness input: the entry holding the two senses. -/
def claim6entry : Node := elemN "entry" [claim6sense1, claim6sense2]

/-- Claim C6, witness: the theorem applied to the concrete entry. -/
theorem claim6_witness :
    senseNodes (rm_doubled_senses claim6entry).1 = [claim6sense1] ∧
    (rm_doubled_senses claim6entry).2 = some true :=
  claim6_thm claim6entry claim6sense1 claim6sense2 rfl rfl

/-- The removed-set of the sense comparison loop only grows. -/
theorem senseFold_suffix :
    ∀ ps rem ch, rem <:+ (senseFold ps rem ch).1 := by
  intro ps
  induction ps with
  | nil => intro rem ch; exact List.suffix_refl rem
  | cons p ps ih =>
    intro rem ch
    obtain ⟨s1, s2⟩ := p
    rw [senseFold]
    by_cases h1 : s1.2.length = s2.2.length
    · rw [if_pos h1]
      by_cases h2 : (List.zip s1.2 s2.2).all (fun e => decide (e.1 = e.2)) = true
      · rw [if_pos h2]
        by_cases h3 : rem.contains s2.1
        · rw [if_pos h3]; exact ih rem ch
        · rw [if_neg h3]
          exact List.IsSuffix.trans (List.suffix_cons s2.1 rem) (ih (s2.1 :: rem) true)
      · rw [if_neg h2]; exact ih rem ch
    · rw [if_neg h1]; exact ih rem ch

/-- A run of the sense comparison loop that reports no change removed
nothing. -/
theorem senseFold_quiet :
    ∀ ps rem ch, (senseFold ps rem ch).2 = false →
      (senseFold ps rem ch).1 = rem ∧ ch = false := by
  intro ps
  induction ps with
  | nil => intro rem ch h; exact ⟨rfl, h⟩
  | cons p ps ih =>
    intro rem ch h
    obtain ⟨s1, s2⟩ := p
    rw [senseFold] at h ⊢
    by_cases h1 : s1.2.length = s2.2.length
    · rw [if_pos h1] at h ⊢
      by_cases h2 : (List.zip s1.2 s2.2).all (fun e => decide (e.1 = e.2)) = true
      · rw [if_pos h2] at h ⊢
        by_cases h3 : rem.contains s2.1
        · rw [if_pos h3] at h ⊢; exact ih rem ch h
        · rw [if_neg h3] at h ⊢
          have := (ih _ true h).2
          simp at this
      · rw [if_neg h2] at h ⊢; exact ih rem ch h
    · rw [if_neg h1] at h ⊢; exact ih rem ch h

/-- A run of the sense comparison loop that reports a change removed
something. -/
theorem senseFold_grew :
    ∀ ps rem, (senseFold ps rem false).2 = true → (senseFold ps rem false).1 ≠ rem := by
  intro ps
  induction ps with
  | nil => intro rem h; simp [senseFold] at h
  | cons p ps ih =>
    intro rem h
    obtain ⟨s1, s2⟩ := p
    rw [senseFold] at h ⊢
    by_cases h1 : s1.2.length = s2.2.length
    · rw [if_pos h1] at h ⊢
      by_cases h2 : (List.zip s1.2 s2.2).all (fun e => decide (e.1 = e.2)) = true
      · rw [if_pos h2] at h ⊢
        by_cases h3 : rem.contains s2.1
        · rw [if_pos h3] at h ⊢; exact ih rem h
        · rw [if_neg h3] at h ⊢
          have hs := senseFold_suffix ps (s2.1 :: rem) true
          intro he
          have hlen := hs.length_le
          rw [he] at hlen
          simp at hlen
      · rw [if_neg h2] at h ⊢; exact ih rem h
    · rw [if_neg h1] at h ⊢; exact ih rem h

/-- A successful step of the quote comparison loop either leaves the state
alone or records exactly one new removal. -/
theorem quoteStep_cases (items : List QItem) (s : QState) (a b : QItem) (s1 : QState)
    (h : quoteStep items s a b = .ok s1) :
    s1 = s ∨ (s1 = ⟨b :: s.removed, true⟩ ∧ s.removed.contains b = false) := by
  rw [quoteStep] at h
  by_cases h1 : (noLive items s.removed (citP a) ||
      (noLive items s.removed (citP b) && !(decide (citP a = citP b)))) = true
  · rw [if_pos h1] at h
    exact Or.inl (Except.ok.inj h).symm
  · rw [if_neg h1] at h
    by_cases h2 : a.text = b.text
    · rw [if_pos h2] at h
      by_cases h3 : s.removed.contains b
      · rw [if_pos h3] at h
        cases h
      · rw [if_neg h3] at h
        exact Or.inr ⟨(Except.ok.inj h).symm, Bool.eq_false_iff.mpr h3⟩
    · rw [if_neg h2] at h
      exact Or.inl (Except.ok.inj h).symm

/-- The removed-set of the quote comparison loop only grows. -/
theorem quoteFold_suffix (items : List QItem) :
    ∀ ps s s2, quoteFold items ps s = .ok s2 → s.removed <:+ s2.removed := by
  intro ps
  induction ps with
  | nil =>
    intro s s2 h
    rw [quoteFold] at h
    rw [← Except.ok.inj h]
  | cons p ps ih =>
    intro s s2 h
    obtain ⟨a, b⟩ := p
    rw [quoteFold] at h
    cases hs : quoteStep items s a b with
    | error m => rw [hs] at h; cases h
    | ok s1 =>
      rw [hs] at h
      rcases quoteStep_cases items s a b s1 hs with h1 | ⟨h1, h2⟩
      · rw [← h1]; exact ih s1 s2 h
      · have := ih s1 s2 h
        rw [h1] at this
        exact List.IsSuffix.trans (List.suffix_cons b s.removed) this

/-- A successful run of the quote comparison loop that reports no change
left the state untouched. -/
theorem quoteFold_quiet (items : List QItem) :
    ∀ ps s s2, quoteFold items ps s = .ok s2 → s2.changed = false → s2 = s := by
  intro ps
  induction ps with
  | nil =>
    intro s s2 h hc
    rw [quoteFold] at h
    exact (Except.ok.inj h).symm
  | cons p ps ih =>
    intro s s2 h hc
    obtain ⟨a, b⟩ := p
    rw [quoteFold] at h
    cases hs : quoteStep items s a b with
    | error m => rw [hs] at h; cases h
    | ok s1 =>
      rw [hs] at h
      rcases quoteStep_cases items s a b s1 hs with h1 | ⟨h1, h2⟩
      · rw [← h1]; exact ih s1 s2 h hc
      · have hq := ih s1 s2 h hc
        rw [hq, h1] at hc
        cases hc

/-- A successful run of the quote comparison loop that reports a change
removed something. -/
theorem quoteFold_grew (items : List QItem) :
    ∀ ps rem s2, quoteFold items ps ⟨rem, false⟩ = .ok s2 → s2.changed = true →
      s2.removed ≠ rem := by
  intro ps
  induction ps with
  | nil =>
    intro rem s2 h hc
    rw [quoteFold] at h
    rw [← Except.ok.inj h] at hc
    cases hc
  | cons p ps ih =>
    intro rem s2 h hc
    obtain ⟨a, b⟩ := p
    rw [quoteFold] at h
    cases hs : quoteStep items ⟨rem, false⟩ a b with
    | error m => rw [hs] at h; cases h
    | ok s1 =>
      rw [hs] at h
      rcases quoteStep_cases items ⟨rem, false⟩ a b s1 hs with h1 | ⟨h1, h2⟩
      · rw [h1] at h; exact ih rem s2 h hc
      · rw [h1] at h
        have hsfx := quoteFold_suffix items ps _ s2 h
        intro he
        have hlen := hsfx.length_le
        rw [he] at hlen
        simp at hlen

/-- Claim C7 (amended): each reducer returns Python None (falsy) in its
no-op case, exactly one sense child for rm_doubled_senses and at most one
collected pair for rm_doubled_quotes, and otherwise returns a boolean
that is True iff at least one removal occurred during the call. -/
theorem claim7_amended_thm (e : Node) :
    ((rm_doubled_senses e).2 = none ↔ (senseIdx e).length = 1) ∧
    (∀ b, (rm_doubled_senses e).2 = some b →
      (b = true ↔ (senseFoldOut e).1 ≠ [])) ∧
    (∀ e2 r, rm_doubled_quotes e = .ok (e2, r) →
      ((r = none ↔ (collectItems e).length ≤ 1) ∧
       (∀ b s2, r = some b → quoteFoldOut e = .ok s2 →
         (b = true ↔ s2.removed ≠ [])))) := by
  refine ⟨?_, ?_, ?_⟩
  · by_cases hl : (senseIdx e).length = 1
    · simp [rm_doubled_senses, hl]
    · simp [rm_doubled_senses, hl]
  · intro b hb
    by_cases hl : (senseIdx e).length = 1
    · simp [rm_doubled_senses, hl] at hb
    · simp only [rm_doubled_senses, if_neg hl] at hb
      have hb2 : (senseFoldOut e).2 = b := Option.some.inj hb
      constructor
      · intro ht
        have hb3 : (senseFold (combinations (senseSigs e)) [] false).2 = true := by
          rw [show senseFold (combinations (senseSigs e)) [] false = senseFoldOut e from rfl, hb2, ht]
        exact senseFold_grew (combinations (senseSigs e)) [] hb3
      · intro hne
        cases hbv : b
        · rw [hbv] at hb2
          have := senseFold_quiet (combinations (senseSigs e)) [] false hb2
          exact absurd this.1 hne
        · rfl
  · intro e2 r hr
    by_cases hl : (collectItems e).length ≤ 1
    · rw [rm_doubled_quotes, if_pos hl] at hr
      have h2 : (e, (none : Option Bool)) = (e2, r) := Except.ok.inj hr
      have hrr : r = none := (congrArg Prod.snd h2).symm
      constructor
      · simp [hrr, hl]
      · intro b s2 hb
        rw [hrr] at hb
        cases hb
    · rw [rm_doubled_quotes, if_neg hl] at hr
      cases hq : quoteFoldOut e with
      | error m => rw [hq] at hr; cases hr
      | ok s =>
        rw [hq] at hr
        have h2 : (applyQuoteRemovals e s.removed, some s.changed) = (e2, r) :=
          Except.ok.inj hr
        have hre : r = some s.changed := (congrArg Prod.snd h2).symm
        constructor
        · simp [hre, hl]
        · intro b s2 hb hq2
          have hs2 : s2 = s := (Except.ok.inj hq2).symm
          rw [hre] at hb
          have hbs : s.changed = b := Option.some.inj hb
          rw [hs2]
          constructor
          · intro ht
            exact quoteFold_grew (collectItems e) (combinations (collectItems e)) [] s hq
              (by rw [hbs, ht])
          · intro hne
            cases hbv : b
            · rw [hbv] at hbs
              have hqq := quoteFold_quiet (collectItems e) (combinations (collectItems e))
                ⟨[], false⟩ s hq hbs
              rw [hqq] at hne
              exact absurd rfl hne
            · rfl

/-- C7 witness input: an entry with two duplicate senses. -/
def claim7wEntry : Node :=
  elemN "entry" [elemN "sense" [elemN "cit" [elemT "quote" "w"]],
    elemN "sense" [elemN "cit" [elemT "quote" "w"]]]

/-- Claim C7, witness: the theorem applied to a concrete entry on which
`rm_doubled_senses` returns True certifies that a removal occurred. -/
theorem claim7_witness : (senseFoldOut claim7wEntry).1 ≠ [] :=
  ((claim7_amended_thm claim7wEntry).2.1 true rfl).mp rfl

/-- Removing nothing keeps every child. -/
theorem keepIdx_nil : ∀ (l : List Node) (k : Nat), keepIdx [] k l = l := by
  intro l
  induction l with
  | nil => intro k; rfl
  | cons c cs ih => intro k; simp [keepIdx, ih]

/-- Applying an empty sense-removal set is the identity. -/
theorem applySenseRemovals_nil (e : Node) : applySenseRemovals e [] = e := by
  rw [applySenseRemovals, keepIdx_nil, Node.eta]

/-- A falsy return from `rm_doubled_senses` means the entry is unchanged. -/
theorem rm_doubled_senses_quiet (e : Node)
    (h : truthyOpt (rm_doubled_senses e).2 = false) :
    (rm_doubled_senses e).1 = e := by
  by_cases hl : (senseIdx e).length = 1
  · simp [rm_doubled_senses, hl]
  · simp only [rm_doubled_senses, if_neg hl] at h ⊢
    simp only [truthyOpt] at h
    have := senseFold_quiet (combinations (senseSigs e)) [] false h
    show applySenseRemovals e (senseFoldOut e).1 = e
    rw [show (senseFoldOut e).1 = [] from this.1, applySenseRemovals_nil]

/-- Removing no quotes keeps every child. -/
theorem keepQ_nil (si ci : Nat) :
    ∀ (l : List Node) (k : Nat), keepQ [] si ci k l = l := by
  intro l
  induction l with
  | nil => intro k; rfl
  | cons c cs ih => intro k; simp [keepQ, ih]

/-- A positional map with a pointwise-identity function is the identity. -/
theorem mapIdx_id (f : Nat → Node → Node) (hf : ∀ k c, f k c = c) :
    ∀ (l : List Node) (k : Nat), mapIdx f k l = l := by
  intro l
  induction l with
  | nil => intro k; rfl
  | cons c cs ih => intro k; rw [mapIdx, hf, ih]

/-- Applying an empty quote-removal set is the identity. -/
theorem applyQuoteRemovals_nil (e : Node) : applyQuoteRemovals e [] = e := by
  rw [applyQuoteRemovals]
  rw [mapIdx_id]
  · exact Node.eta e
  · intro si s
    rw [mapIdx_id]
    · exact Node.eta s
    · intro ci c
      rw [keepQ_nil, Node.eta]

/-- A falsy return from a successful `rm_doubled_quotes` means the entry is
unchanged. -/
theorem rm_doubled_quotes_quiet (e e2 : Node) (r : Option Bool)
    (h : rm_doubled_quotes e = .ok (e2, r)) (hq : truthyOpt r = false) :
    e2 = e := by
  by_cases hl : (collectItems e).length ≤ 1
  · rw [rm_doubled_quotes, if_pos hl] at h
    have h2 := Except.ok.inj h
    injection h2 with hx hy
    exact hx.symm
  · rw [rm_doubled_quotes, if_neg hl] at h
    cases hfo : quoteFoldOut e with
    | error m => rw [hfo] at h; cases h
    | ok s =>
      rw [hfo] at h
      have h2 := Except.ok.inj h
      injection h2 with hx hy
      rw [← hy] at hq
      simp only [truthyOpt] at hq
      have hqs := quoteFold_quiet (collectItems e) (combinations (collectItems e))
        ⟨[], false⟩ s hfo hq
      rw [← hx, hqs]
      exact applyQuoteRemovals_nil e

/-- A pass visit that reports no change returns the node unchanged. -/
theorem visit_quiet :
    ∀ n, ∀ oc b, visitNode n = .ok (oc, b) → b = false → oc = some n := by
  apply nodeInd
    (P := fun n => ∀ oc b, visitNode n = .ok (oc, b) → b = false → oc = some n)
    (Q := fun l => ∀ l2 b, visitList l = .ok (l2, b) → b = false → l2 = l)
  · intro l2 b h hb
    have := Except.ok.inj h
    injection this with h1 h2
    exact h1.symm
  · intro c cs hc hcs l2 b h hb
    rw [visitList] at h
    cases hvc : visitNode c with
    | error m => rw [hvc] at h; cases h
    | ok pc =>
      rw [hvc] at h
      cases hvl : visitList cs with
      | error m => rw [hvl] at h; cases h
      | ok pl =>
        rw [hvl] at h
        have h2 := Except.ok.inj h
        injection h2 with hx hy
        rw [hb] at hy
        have hb3 := Bool.or_eq_false_iff.mp hy
        have hoc : pc.1 = some c := hc pc.1 pc.2 (by rw [hvc]) hb3.1
        have hl2 : pl.1 = cs := hcs pl.1 pl.2 (by rw [hvl]) hb3.2
        rw [← hx, hoc, hl2]
        rfl
  · intro t a x cs hcs oc b h hb
    cases t with
    | comment => rw [visitNode] at h; cases h
    | str s =>
      rw [visitNode] at h
      by_cases hbl : (blankText x && cs.isEmpty) = true
      · rw [if_pos hbl] at h
        have h2 := Except.ok.inj h
        injection h2 with hx hy
        rw [hb] at hy
        cases hy
      · rw [if_neg hbl] at h
        cases hvl : visitList cs with
        | error m => rw [hvl] at h; cases h
        | ok pl =>
          rw [hvl] at h
          have h2 := Except.ok.inj h
          injection h2 with hx hy
          rw [hb] at hy
          have hb3 := Bool.or_eq_false_iff.mp hy
          have hl2 : pl.1 = cs := hcs pl.1 pl.2 (by rw [hvl]) hb3.2
          rw [← hx, hb3.1, if_neg (by decide), hl2]

/-- A pass visit of a sibling list that reports no change returns it
unchanged. -/
theorem visitList_quiet :
    ∀ (l : List Node) (l2 : List Node) (b : Bool),
      visitList l = .ok (l2, b) → b = false → l2 = l := by
  intro l
  induction l with
  | nil =>
    intro l2 b h hb
    have := Except.ok.inj h
    injection this with h1 h2
    exact h1.symm
  | cons c cs ih =>
    intro l2 b h hb
    rw [visitList] at h
    cases hvc : visitNode c with
    | error m => rw [hvc] at h; cases h
    | ok pc =>
      rw [hvc] at h
      cases hvl : visitList cs with
      | error m => rw [hvl] at h; cases h
      | ok pl =>
        rw [hvl] at h
        have h2 := Except.ok.inj h
        injection h2 with hx hy
        rw [hb] at hy
        have hb3 := Bool.or_eq_false_iff.mp hy
        have hoc : pc.1 = some c := visit_quiet c pc.1 pc.2 (by rw [hvc]) hb3.1
        have hl2 : pl.1 = cs := ih pl.1 pl.2 (by rw [hvl]) hb3.2
        rw [← hx, hoc, hl2]
        rfl

/-- A pass of `rm_empty_nodes` that reports no change returns the entry
unchanged. -/
theorem emptyPass_quiet (e : Node) (e1 : Node)
    (h : emptyPass e = .ok (e1, false)) : e1 = e := by
  cases e with
  | mk t a x cs =>
    cases t with
    | comment => rw [emptyPass] at h; cases h
    | str s =>
      rw [emptyPass] at h
      by_cases hbl : (blankText x && cs.isEmpty) = true
      · rw [if_pos hbl] at h; cases h
      · rw [if_neg hbl] at h
        cases hvl : visitList cs with
        | error m => rw [hvl] at h; cases h
        | ok pl =>
          rw [hvl] at h
          have h2 := Except.ok.inj h
          injection h2 with hx hy
          have hb3 := Bool.or_eq_false_iff.mp hy
          have hl2 : pl.1 = cs := visitList_quiet cs pl.1 pl.2 (by rw [hvl]) hb3.2
          rw [← hx, hb3.1, if_neg (by decide), hl2]

/-- An `rm_empty_nodes` call that returns False left the entry unchanged. -/
theorem rm_empty_nodes_quiet (e e2 : Node)
    (h : rm_empty_nodes e = .ok (e2, false)) : e2 = e := by
  rw [rm_empty_nodes] at h
  cases hp1 : emptyPass e with
  | error m => rw [hp1] at h; cases h
  | ok p1 =>
    rw [hp1] at h
    have h1 : (match emptyPass p1.1 with
        | Except.error m => Except.error m
        | Except.ok p2 => Except.ok (p2.1, p1.2 || p2.2)) = Except.ok (e2, false) := h
    cases hp2 : emptyPass p1.1 with
    | error m => rw [hp2] at h1; cases h1
    | ok p2 =>
      rw [hp2] at h1
      have h2 := Except.ok.inj h1
      injection h2 with hx hy
      have hb := Bool.or_eq_false_iff.mp hy
      have h1e : p1.1 = e := emptyPass_quiet e p1.1 (by rw [hp1, ← hb.1])
      have h2e : p2.1 = p1.1 := emptyPass_quiet p1.1 p2.1 (by rw [hp2, ← hb.2])
      rw [← hx, h2e, h1e]

/-- An entry for which all three reducers report falsy is unchanged. -/
theorem processEntry_quiet (e e1 : Node)
    (h : processEntry e = .ok (e1, false, false, false)) : e1 = e := by
  rw [processEntry] at h
  cases hq : rm_doubled_quotes (rm_doubled_senses e).1 with
  | error m => rw [hq] at h; cases h
  | ok p2 =>
    rw [hq] at h
    have h1 : (match rm_empty_nodes p2.1 with
        | Except.error m => Except.error m
        | Except.ok p3 =>
          Except.ok (p3.1, truthyOpt (rm_doubled_senses e).2, truthyOpt p2.2, p3.2)) =
        Except.ok (e1, false, false, false) := h
    cases hn : rm_empty_nodes p2.1 with
    | error m => rw [hn] at h1; cases h1
    | ok p3 =>
      rw [hn] at h1
      have h2 := Except.ok.inj h1
      injection h2 with hx hy
      injection hy with hy1 hy2
      injection hy2 with hy2 hy3
      have hs : (rm_doubled_senses e).1 = e := rm_doubled_senses_quiet e hy1
      have hqq : p2.1 = (rm_doubled_senses e).1 :=
        rm_doubled_quotes_quiet (rm_doubled_senses e).1 p2.1 p2.2
          (by rw [hq]) (by rw [hy2])
      have hnn : p3.1 = p2.1 := rm_empty_nodes_quiet p2.1 p3.1 (by rw [hn, ← hy3])
      rw [← hx, hnn, hqq, hs]

/-- Claim C1 (amended): the pipeline is not idempotent in general (see the
counterexample), but whenever an application of the three reducers reports
no change for an entry, the entry is unchanged and a second application
reports no change as well. -/
theorem claim1_amended_thm (e e1 : Node)
    (h : processEntry e = .ok (e1, false, false, false)) :
    e1 = e ∧ processEntry e1 = .ok (e1, false, false, false) := by
  have he := processEntry_quiet e e1 h
  refine ⟨he, ?_⟩
  rw [he] at h ⊢
  exact h

/-- Claim C9 (amended): in detect-only mode, provided no reducer raises an
exception on the entries up to and including the first triggering one,
processing stops with the distinguished exit status 42 immediately after
that entry, which has already been mutated in memory, with the remaining
entries unevaluated and no output file written (only the `done` outcome
with a true flag leads to `tree.write`). -/
theorem claim9_amended_thm :
    ∀ (pre : List Node) (e : Node) (post : List Node) (e1 : Node) (c1 c2 c3 : Bool),
      (∀ p ∈ pre, ∃ p1, processEntry p = .ok (p1, false, false, false)) →
      processEntry e = .ok (e1, c1, c2, c3) → (c1 || c2 || c3) = true →
      mainLoop true false (pre ++ e :: post) = .ok (.exit42 (pre ++ e1 :: post)) := by
  intro pre
  induction pre with
  | nil =>
    intro e post e1 c1 c2 c3 hpre hproc hflag
    simp only [List.nil_append]
    rw [mainLoop, hproc]
    simp [hflag]
  | cons p ps ih =>
    intro e post e1 c1 c2 c3 hpre hproc hflag
    obtain ⟨p1, hp1⟩ := hpre p (by simp)
    have hpp : p1 = p := processEntry_quiet p p1 hp1
    have hih := ih e post e1 c1 c2 c3 (fun q hq => hpre q (by simp [hq])) hproc hflag
    rw [List.cons_append, mainLoop, hp1]
    simp [hih, hpp]

/-- C1 witness input: an entry the pipeline leaves unchanged. -/
def claim1quiet : Node := elemN "entry" [elemT "form" "ok"]

/-- Claim C1, witness: the amended theorem applied to a concrete quiet
entry. -/
theorem claim1_witness :
    claim1quiet = claim1quiet ∧
    processEntry claim1quiet = .ok (claim1quiet, false, false, false) :=
  claim1_amended_thm claim1quiet claim1quiet rfl

/-- C9 witness input: a quiet first entry. -/
def claim9wQuiet : Node := elemN "entry" [elemT "form" "q"]

/-- C9 witness input: the triggering second entry, with duplicate senses. -/
def claim9wTrig : Node :=
  elemN "entry" [elemN "sense" [elemN "cit" [elemT "quote" "du"]],
    elemN "sense" [elemN "cit" [elemT "quote" "du"]]]

/-- C9 witness: the triggering entry as mutated in memory. -/
def claim9wMut : Node :=
  elemN "entry" [elemN "sense" [elemN "cit" [elemT "quote" "du"]]]

/-- C9 witness input: a subsequent entry that is never evaluated. -/
def claim9wPost : Node := elemN "entry" [elemT "form" "zz"]

/-- Claim C9, witness: the amended theorem applied to a concrete detect-only
run. -/
theorem claim9_witness :
    mainLoop true false [claim9wQuiet, claim9wTrig, claim9wPost] =
      .ok (.exit42 [claim9wQuiet, claim9wMut, claim9wPost]) :=
  claim9_amended_thm [claim9wQuiet] claim9wTrig [claim9wPost] claim9wMut
    true false false
    (by
      intro p hp
      simp at hp
      subst hp
      exact ⟨claim9wQuiet, rfl⟩)
    rfl rfl

/-- Shape of a successful pass visit of one node: either the node was empty
and removed, or it survives with its text and the survivors of its
children. -/
theorem visitNode_ok_shape (c : Node) (pc : Option Node × Bool)
    (h : visitNode c = .ok pc) :
    (pc.1 = none ∧ blankText c.text = true ∧ c.children = []) ∨
    (∃ s a1 pl, c.tag = Tag.str s ∧ visitList c.children = .ok pl ∧
      pc.1 = some (Node.mk (Tag.str s) a1 c.text pl.1) ∧
      (blankText c.text && c.children.isEmpty) = false) := by
  cases c with
  | mk t a x cs =>
    cases t with
    | comment => rw [visitNode] at h; cases h
    | str s =>
      rw [visitNode] at h
      by_cases hbl : (blankText x && cs.isEmpty) = true
      · rw [if_pos hbl] at h
        have h2 := Except.ok.inj h
        have hx : pc.1 = none := (congrArg Prod.fst h2).symm
        left
        have hb := Bool.and_eq_true_iff.mp hbl
        refine ⟨hx, hb.1, ?_⟩
        cases cs
        · rfl
        · simp [List.isEmpty] at hb
      · rw [if_neg hbl] at h
        cases hvl : visitList cs with
        | error m => rw [hvl] at h; cases h
        | ok pl =>
          rw [hvl] at h
          have h2 := Except.ok.inj h
          have hx : pc.1 = some (Node.mk (Tag.str s)
              (if (strEndsWith s "sense" && truthyAttr (lookupA "n" a)) = true
               then delA "n" a else a) x pl.1) :=
            (congrArg Prod.fst h2).symm
          right
          exact ⟨s, _, pl, rfl, hvl, hx, Bool.eq_false_iff.mpr hbl⟩

/-- Shape of a successful pass over the traversal root: it survives with its
text and the survivors of its children. -/
theorem emptyPass_ok_shape (e : Node) (p : Node × Bool)
    (h : emptyPass e = .ok p) :
    ∃ s a1 pl, e.tag = Tag.str s ∧ visitList e.children = .ok pl ∧
      p.1 = Node.mk (Tag.str s) a1 e.text pl.1 := by
  cases e with
  | mk t a x cs =>
    cases t with
    | comment => rw [emptyPass] at h; cases h
    | str s =>
      rw [emptyPass] at h
      by_cases hbl : (blankText x && cs.isEmpty) = true
      · rw [if_pos hbl] at h; cases h
      · rw [if_neg hbl] at h
        cases hvl : visitList cs with
        | error m => rw [hvl] at h; cases h
        | ok pl =>
          rw [hvl] at h
          have h2 := Except.ok.inj h
          have hx : p.1 = Node.mk (Tag.str s)
              (if (strEndsWith s "sense" && truthyAttr (lookupA "n" a)) = true
               then delA "n" a else a) x pl.1 :=
            (congrArg Prod.fst h2).symm
          exact ⟨s, _, pl, rfl, hvl, hx⟩

/-- Shape of a successful pass visit of a non-empty sibling list. -/
theorem visitList_cons_shape (g : Node) (gs : List Node) (p : List Node × Bool)
    (h : visitList (g :: gs) = .ok p) :
    ∃ pg pl, visitNode g = .ok pg ∧ visitList gs = .ok pl ∧
      p.1 = pg.1.toList ++ pl.1 := by
  rw [visitList] at h
  cases hvg : visitNode g with
  | error m => rw [hvg] at h; cases h
  | ok pg =>
    rw [hvg] at h
    cases hvl : visitList gs with
    | error m => rw [hvl] at h; cases h
    | ok pl =>
      rw [hvl] at h
      have h2 := Except.ok.inj h
      have hx : p.1 = pg.1.toList ++ pl.1 := (congrArg Prod.fst h2).symm
      exact ⟨pg, pl, rfl, rfl, hx⟩

/-- Pass over a list of leaves: every survivor is a leaf with non-blank
text. -/
theorem leaf_list_visit :
    ∀ (gs : List Node), (∀ g ∈ gs, g.children = []) →
      ∀ p, visitList gs = .ok p →
        ∀ g1 ∈ p.1, g1.children = [] ∧ blankText g1.text = false := by
  intro gs
  induction gs with
  | nil =>
    intro hleaf p h g1 hg1
    have h2 := Except.ok.inj h
    have hx : p.1 = [] := (congrArg Prod.fst h2).symm
    rw [hx] at hg1
    cases hg1
  | cons g gs ih =>
    intro hleaf p h g1 hg1
    obtain ⟨pg, pl, hvg, hvl, hx⟩ := visitList_cons_shape g gs p h
    rw [hx] at hg1
    rcases List.mem_append.mp hg1 with hin | hin
    · rcases visitNode_ok_shape g pg hvg with ⟨hn, _, _⟩ | ⟨s, a1, plg, _, hplg, hsome, hcond⟩
      · rw [hn] at hin
        cases hin
      · rw [hsome] at hin
        have hgc : g.children = [] := hleaf g (by simp)
        rw [hgc] at hplg
        have hplg2 : ([], false) = plg := Except.ok.inj hplg
        simp only [Option.toList] at hin
        rcases List.mem_singleton.mp hin with rfl
        constructor
        · show plg.1 = []
          rw [← hplg2]
        · show blankText g.text = false
          rw [hgc] at hcond
          simpa using hcond
    · exact ih (fun g2 hg2 => hleaf g2 (by simp [hg2])) pl (by rw [hvl]) g1 hin

/-- Pass over a list of non-blank leaves: all survive unchanged in number,
still non-blank leaves. -/
theorem solid_leaf_list_visit :
    ∀ (gs : List Node), (∀ g ∈ gs, g.children = [] ∧ blankText g.text = false) →
      ∀ p, visitList gs = .ok p →
        (∀ g1 ∈ p.1, g1.children = [] ∧ blankText g1.text = false) ∧
        p.1.length = gs.length := by
  intro gs
  induction gs with
  | nil =>
    intro hleaf p h
    have h2 := Except.ok.inj h
    have hx : p.1 = [] := (congrArg Prod.fst h2).symm
    rw [hx]
    exact ⟨fun g1 hg1 => (List.not_mem_nil g1 hg1).elim, rfl⟩
  | cons g gs ih =>
    intro hleaf p h
    obtain ⟨pg, pl, hvg, hvl, hx⟩ := visitList_cons_shape g gs p h
    have hgl := hleaf g (by simp)
    have hihs := ih (fun g2 hg2 => hleaf g2 (by simp [hg2])) pl (by rw [hvl])
    rcases visitNode_ok_shape g pg hvg with ⟨hn, hbl, _⟩ | ⟨s, a1, plg, _, hplg, hsome, hcond⟩
    · rw [hgl.2] at hbl
      cases hbl
    · rw [hgl.1] at hplg
      have hplg2 : ([], false) = plg := Except.ok.inj hplg
      rw [hx, hsome]
      simp only [Option.toList]
      constructor
      · intro g1 hg1
        rcases List.mem_cons.mp hg1 with rfl | hin
        · refine ⟨?_, ?_⟩
          · show plg.1 = []
            rw [← hplg2]
          · show blankText g.text = false
            exact hgl.2
        · exact hihs.1 g1 hin
      · simp [hihs.2]

/-- Pass over children whose own children are leaves: every surviving child
has only non-blank leaf children. -/
theorem mid_list_visit :
    ∀ (cs : List Node), (∀ c ∈ cs, ∀ g ∈ c.children, g.children = []) →
      ∀ p, visitList cs = .ok p →
        ∀ c1 ∈ p.1, ∀ g1 ∈ c1.children, g1.children = [] ∧ blankText g1.text = false := by
  intro cs
  induction cs with
  | nil =>
    intro hmid p h c1 hc1
    have h2 := Except.ok.inj h
    have hx : p.1 = [] := (congrArg Prod.fst h2).symm
    rw [hx] at hc1
    cases hc1
  | cons c cs ih =>
    intro hmid p h c1 hc1
    obtain ⟨pc, pl, hvc, hvl, hx⟩ := visitList_cons_shape c cs p h
    rw [hx] at hc1
    rcases List.mem_append.mp hc1 with hin | hin
    · rcases visitNode_ok_shape c pc hvc with ⟨hn, _, _⟩ | ⟨s, a1, plc, _, hplc, hsome, hcond⟩
      · rw [hn] at hin
        cases hin
      · rw [hsome] at hin
        simp only [Option.toList] at hin
        rcases List.mem_singleton.mp hin with rfl
        intro g1 hg1
        exact leaf_list_visit c.children (hmid c (by simp)) plc hplc g1 hg1
    · exact ih (fun c2 hc2 => hmid c2 (by simp [hc2])) pl (by rw [hvl]) c1 hin

/-- A list of non-blank leaves has no empty nodes anywhere. -/
theorem descOkL_solid_leaves (gs : List Node)
    (h : ∀ g ∈ gs, g.children = [] ∧ blankText g.text = false) :
    descOkL gs = true := by
  induction gs with
  | nil => rfl
  | cons g gs ih =>
    have hg := h g (by simp)
    rw [descOkL]
    have h1 : isEmptyNode g = false := by
      rw [isEmptyNode, hg.2]
      rfl
    have h2 : descOk g = true := by
      cases g with
      | mk t a x cs =>
        have : cs = [] := hg.1
        rw [this]
        rfl
    rw [h1, h2, ih (fun g2 hg2 => h g2 (by simp [hg2]))]
    rfl

/-- Second pass over children all of whose children are non-blank leaves:
the result has no empty node anywhere below the root. -/
theorem pass2_list_visit :
    ∀ (cs : List Node),
      (∀ c ∈ cs, ∀ g ∈ c.children, g.children = [] ∧ blankText g.text = false) →
      ∀ p, visitList cs = .ok p → descOkL p.1 = true := by
  intro cs
  induction cs with
  | nil =>
    intro hmid p h
    have h2 := Except.ok.inj h
    have hx : p.1 = [] := (congrArg Prod.fst h2).symm
    rw [hx]
    rfl
  | cons c cs ih =>
    intro hmid p h
    obtain ⟨pc, pl, hvc, hvl, hx⟩ := visitList_cons_shape c cs p h
    have hrest : descOkL pl.1 = true :=
      ih (fun c2 hc2 => hmid c2 (by simp [hc2])) pl (by rw [hvl])
    rcases visitNode_ok_shape c pc hvc with ⟨hn, _, _⟩ | ⟨s, a1, plc, _, hplc, hsome, hcond⟩
    · rw [hx, hn]
      simpa using hrest
    · rw [hx, hsome]
      simp only [Option.toList]
      have hsolid := solid_leaf_list_visit c.children (hmid c (by simp)) plc hplc
      rw [show ([Node.mk (Tag.str s) a1 c.text plc.1] ++ pl.1 : List Node) =
        Node.mk (Tag.str s) a1 c.text plc.1 :: pl.1 from rfl]
      rw [descOkL]
      have hde : descOk (Node.mk (Tag.str s) a1 c.text plc.1) = true := by
        rw [show descOk (Node.mk (Tag.str s) a1 c.text plc.1) = descOkL plc.1 from rfl]
        exact descOkL_solid_leaves plc.1 hsolid.1
      have hne : isEmptyNode (Node.mk (Tag.str s) a1 c.text plc.1) = false := by
        rw [isEmptyNode]
        show (blankText c.text && plc.1.isEmpty) = false
        cases hbx : blankText c.text
        · rfl
        · rw [hbx] at hcond
          have hce : c.children.isEmpty = false := by simpa using hcond
          have hlen : plc.1.length = c.children.length := hsolid.2
          cases hcc : c.children with
          | nil => rw [hcc] at hce; cases hce
          | cons y ys =>
            rw [hcc] at hlen
            cases hpcc : plc.1 with
            | nil => rw [hpcc] at hlen; cases hlen
            | cons z zs => rfl
      rw [hde, hne, hrest]
      rfl

/-- Claim C2 (amended): for entries whose subtree has no great-grandchildren
(height at most two), after `rm_empty_nodes` completes its two passes no
node other than the entry itself has both no non-whitespace text and zero
children; deeper nestings are not cascaded (see the counterexample). -/
theorem claim2_amended_thm (e e2 : Node) (b : Bool)
    (hh : heightLe2 e = true) (h : rm_empty_nodes e = .ok (e2, b)) :
    descOk e2 = true := by
  have hmid : ∀ c ∈ e.children, ∀ g ∈ c.children, g.children = [] := by
    intro c hc g hg
    have h1 := (List.all_eq_true.mp hh) c hc
    have h2 := (List.all_eq_true.mp h1) g hg
    cases hgc : g.children with
    | nil => rfl
    | cons y ys =>
      rw [hgc] at h2
      simp [List.isEmpty] at h2
  rw [rm_empty_nodes] at h
  cases hp1 : emptyPass e with
  | error m => rw [hp1] at h; cases h
  | ok p1 =>
    rw [hp1] at h
    have h1 : (match emptyPass p1.1 with
        | Except.error m => Except.error m
        | Except.ok p2 => Except.ok (p2.1, p1.2 || p2.2)) = Except.ok (e2, b) := h
    cases hp2 : emptyPass p1.1 with
    | error m => rw [hp2] at h1; cases h1
    | ok p2 =>
      rw [hp2] at h1
      have h2 := Except.ok.inj h1
      have he2 : p2.1 = e2 := congrArg Prod.fst h2
      obtain ⟨s, a1, pl, htag, hvl, hsh⟩ := emptyPass_ok_shape e p1 hp1
      have hmidprop : ∀ c1 ∈ pl.1, ∀ g1 ∈ c1.children,
          g1.children = [] ∧ blankText g1.text = false :=
        mid_list_visit e.children hmid pl hvl
      obtain ⟨s2, a2, pl2, htag2, hvl2, hsh2⟩ := emptyPass_ok_shape p1.1 p2 hp2
      have hch : p1.1.children = pl.1 := by rw [hsh]; rfl
      rw [hch] at hvl2
      have hdo : descOkL pl2.1 = true := pass2_list_visit pl.1 hmidprop pl2 hvl2
      rw [← he2, hsh2]
      show descOkL pl2.1 = true
      exact hdo

/-- C2 witness input: a height-one entry with one empty sense child. -/
def claim2wEntry : Node := elemN "entry" [elemT "form" "hw", elemN "sense" []]

/-- C2 witness: the entry after the two passes. -/
def claim2wOut : Node := elemN "entry" [elemT "form" "hw"]

/-- Claim C2, witness: the amended theorem applied to the concrete shallow
entry. -/
theorem claim2_witness : descOk claim2wOut = true :=
  claim2_amended_thm claim2wEntry claim2wOut true rfl rfl

/-- Attaching positions preserves the length. -/
theorem withIdx_length :
    ∀ (l : List (Nat × Nat × Nat × Option String)) (m : Nat),
      (withIdx m l).length = l.length := by
  intro l
  induction l with
  | nil => intro m; rfl
  | cons p r ih =>
    intro m
    obtain ⟨s, c, q, t⟩ := p
    rw [withIdx]
    simp [ih]

/-- The recorded position of the k-th collected item. -/
theorem withIdx_idx :
    ∀ (l : List (Nat × Nat × Nat × Option String)) (m k : Nat)
      (h : k < (withIdx m l).length), ((withIdx m l)[k]).idx = m + k := by
  intro l
  induction l with
  | nil => intro m k h; simp [withIdx] at h
  | cons p r ih =>
    intro m k h
    obtain ⟨s, c, q, t⟩ := p
    cases k with
    | zero => rfl
    | succ k2 =>
      have h2 : k2 < (withIdx (m + 1) r).length := by
        rw [withIdx_length] at h ⊢
        simpa using Nat.lt_of_succ_lt_succ h
      have := ih (m + 1) k2 h2
      rw [show ((withIdx m ((s, c, q, t) :: r))[k2 + 1]) =
        ((withIdx (m + 1) r)[k2]) from rfl]
      rw [this]
      omega

/-- The `idx` field of a collected item is its position in the list. -/
theorem collectItems_idx (e : Node) (k : Nat) (h : k < (collectItems e).length) :
    ((collectItems e)[k]).idx = k := by
  have h0 : k < (withIdx 0 (collectRaw e)).length := h
  have := withIdx_idx (collectRaw e) 0 k h0
  simpa using this

/-- A collected item sits at the position recorded in its `idx` field. -/
theorem item_mem_idx (e : Node) (it : QItem) (h : it ∈ collectItems e) :
    ∃ hk : it.idx < (collectItems e).length, (collectItems e)[it.idx] = it := by
  obtain ⟨n, hlt, hget⟩ := List.mem_iff_getElem.mp h
  have hidx : it.idx = n := by
    rw [← hget]
    exact collectItems_idx e n hlt
  subst hidx
  exact ⟨hlt, hget⟩

/-- In a split of the collected list, the pivot's `idx` is the prefix
length. -/
theorem item_split_idx (e : Node) (pre suf : List QItem) (a : QItem)
    (hsplit : collectItems e = pre ++ a :: suf) : a.idx = pre.length := by
  have hlen : pre.length < (collectItems e).length := by
    rw [hsplit]
    simp
  have h1 : (collectItems e)[pre.length] = a := by
    rw [List.getElem_of_eq hsplit hlen]
    rw [List.getElem_append_right (Nat.le_refl pre.length)]
    simp
  have h2 := collectItems_idx e pre.length hlen
  rw [h1] at h2
  exact h2

/-- A collected item with a smaller `idx` than the pivot lies in the
prefix. -/
theorem item_before_mem (e : Node) (pre suf : List QItem) (a m : QItem)
    (hsplit : collectItems e = pre ++ a :: suf) (hm : m ∈ collectItems e)
    (hlt : m.idx < a.idx) : m ∈ pre := by
  obtain ⟨hk, h1⟩ := item_mem_idx e m hm
  have hpl : m.idx < pre.length := by
    rw [← item_split_idx e pre suf a hsplit]
    exact hlt
  rw [List.getElem_of_eq hsplit hk] at h1
  rw [List.getElem_append_left hpl] at h1
  rw [← h1]
  exact List.getElem_mem hpl

/-- A collected item with a larger `idx` than the pivot lies in the
suffix. -/
theorem item_after_mem (e : Node) (pre suf : List QItem) (a b : QItem)
    (hsplit : collectItems e = pre ++ a :: suf) (hb : b ∈ collectItems e)
    (hgt : a.idx < b.idx) : b ∈ suf := by
  obtain ⟨hk, h1⟩ := item_mem_idx e b hb
  have hZ := item_split_idx e pre suf a hsplit
  have hq : (collectItems e)[b.idx]? = some b := by
    rw [List.getElem?_eq_getElem hk, h1]
  rw [hsplit] at hq
  rw [List.getElem?_append_right (by omega)] at hq
  obtain ⟨d, hd⟩ : ∃ d, b.idx - pre.length = d + 1 := ⟨b.idx - pre.length - 1, by omega⟩
  rw [hd, List.getElem?_cons_succ] at hq
  obtain ⟨hdl, hdg⟩ := List.getElem?_eq_some.mp hq
  rw [← hdg]
  exact List.getElem_mem hdl

/-- Every item of the suffix has a larger `idx` than the pivot. -/
theorem item_suf_gt (e : Node) (pre suf : List QItem) (a y : QItem)
    (hsplit : collectItems e = pre ++ a :: suf) (hy : y ∈ suf) : a.idx < y.idx := by
  obtain ⟨d, hd, hget⟩ := List.mem_iff_getElem.mp hy
  have hZ := item_split_idx e pre suf a hsplit
  have hq : (collectItems e)[pre.length + 1 + d]? = some y := by
    rw [hsplit]
    rw [List.getElem?_append_right (by omega)]
    rw [show pre.length + 1 + d - pre.length = d + 1 by omega]
    rw [List.getElem?_cons_succ]
    rw [List.getElem?_eq_getElem hd, hget]
  obtain ⟨hdl, hdg⟩ := List.getElem?_eq_some.mp hq
  have h2 := collectItems_idx e (pre.length + 1 + d) hdl
  rw [hdg] at h2
  omega

/-- When a cit has no live quote children, every collected item of that cit
has been removed. -/
theorem noLive_spec (items rem : List QItem) (cp : Nat × Nat)
    (h : noLive items rem cp = true) :
    ∀ it ∈ items, citP it = cp → it ∈ rem := by
  intro it hit hcp
  have h1 := (List.all_eq_true.mp h) it hit
  rw [hcp] at h1
  simp only [decide_True, Bool.not_true, Bool.false_or] at h1
  exact List.elem_iff.mp h1

/-- Case analysis of a successful comparison step: skipped because the first
cit is exhausted, skipped because the second cit is exhausted (and the
cits differ), texts differ, or the second quote is removed now. -/
theorem quoteStep_ok_analysis (items : List QItem) (s : QState) (a y : QItem)
    (s1 : QState) (h : quoteStep items s a y = .ok s1) :
    (noLive items s.removed (citP a) = true ∧ s1 = s) ∨
    (noLive items s.removed (citP y) = true ∧ citP a ≠ citP y ∧ s1 = s) ∨
    (a.text ≠ y.text ∧ s1 = s) ∨
    (a.text = y.text ∧ s.removed.contains y = false ∧
      s1 = ⟨y :: s.removed, true⟩) := by
  rw [quoteStep] at h
  by_cases h1 : (noLive items s.removed (citP a) ||
      (noLive items s.removed (citP y) && !(decide (citP a = citP y)))) = true
  · rw [if_pos h1] at h
    have hs := (Except.ok.inj h).symm
    rcases Bool.or_eq_true _ _ |>.mp h1 with h2 | h2
    · exact Or.inl ⟨h2, hs⟩
    · have h3 := Bool.and_eq_true_iff.mp h2
      refine Or.inr (Or.inl ⟨h3.1, ?_, hs⟩)
      intro he
      rw [he] at h3
      simp at h3
  · rw [if_neg h1] at h
    by_cases h2 : a.text = y.text
    · rw [if_pos h2] at h
      by_cases h3 : s.removed.contains y
      · rw [if_pos h3] at h
        cases h
      · rw [if_neg h3] at h
        exact Or.inr (Or.inr (Or.inr
          ⟨h2, Bool.eq_false_iff.mpr h3, (Except.ok.inj h).symm⟩))
    · rw [if_neg h2] at h
      exact Or.inr (Or.inr (Or.inl ⟨h2, (Except.ok.inj h).symm⟩))

/-- A successful fold over a concatenation splits into two successful
folds. -/
theorem quoteFold_append (items : List QItem) :
    ∀ (l1 l2 : List (QItem × QItem)) (s s2 : QState),
      quoteFold items (l1 ++ l2) s = .ok s2 →
      ∃ s1, quoteFold items l1 s = .ok s1 ∧ quoteFold items l2 s1 = .ok s2 := by
  intro l1
  induction l1 with
  | nil =>
    intro l2 s s2 h
    exact ⟨s, rfl, h⟩
  | cons p l1 ih =>
    intro l2 s s2 h
    obtain ⟨x, y⟩ := p
    rw [List.cons_append, quoteFold] at h
    cases hs : quoteStep items s x y with
    | error m => rw [hs] at h; cases h
    | ok st =>
      rw [hs] at h
      obtain ⟨s1, hl1, hl2⟩ := ih l2 st s2 h
      refine ⟨s1, ?_, hl2⟩
      rw [quoteFold, hs]
      exact hl1

/-- Once removed, a quote stays removed through the rest of the loop. -/
theorem removed_persist (items : List QItem) (ps : List (QItem × QItem))
    (s s2 : QState) (h : quoteFold items ps s = .ok s2) (x : QItem)
    (hx : x ∈ s.removed) : x ∈ s2.removed :=
  (quoteFold_suffix items ps s s2 h).subset hx

/-- Processing the block of pairs whose first component is the pivot `a`:
the removal-justification invariant is preserved, and every block partner
with text equal to the pivot's ends up removed, either by its own pair,
by an earlier removal (certified by the processed-pairs invariant when
the pivot itself was already removed), or because its cit was already
exhausted. -/
theorem quoteBlock (e : Node) (a : QItem) (pre suf0 : List QItem)
    (hsplit : collectItems e = pre ++ a :: suf0) :
    ∀ (ys : List QItem), (∀ y ∈ ys, y ∈ collectItems e ∧ a.idx < y.idx) →
    ∀ s s2, quoteFold (collectItems e) (ys.map (fun y => (a, y))) s = .ok s2 →
      (∀ r ∈ s.removed, ∃ m ∈ collectItems e, m.idx < r.idx ∧ m.text = r.text) →
      (∀ m ∈ pre, ∀ y ∈ collectItems e, m.idx < y.idx → m.text = y.text →
        y ∈ s.removed) →
      ((∀ r ∈ s2.removed, ∃ m ∈ collectItems e, m.idx < r.idx ∧ m.text = r.text) ∧
       (∀ y ∈ ys, a.text = y.text → y ∈ s2.removed)) := by
  have hamem : a ∈ collectItems e := by
    rw [hsplit]
    simp
  intro ys
  induction ys with
  | nil =>
    intro hys s s2 h hINV1 hINVP
    have hs2 : s = s2 := Except.ok.inj h
    rw [← hs2]
    exact ⟨hINV1, fun y hy => (List.not_mem_nil y hy).elim⟩
  | cons y ys ih =>
    intro hys s s2 h hINV1 hINVP
    rw [List.map_cons, quoteFold] at h
    cases hs : quoteStep (collectItems e) s a y with
    | error m => rw [hs] at h; cases h
    | ok s1 =>
      rw [hs] at h
      have hyin := hys y (by simp)
      rcases quoteStep_ok_analysis (collectItems e) s a y s1 hs with
        ⟨hnl, hs1⟩ | ⟨hnl, hne, hs1⟩ | ⟨hne, hs1⟩ | ⟨heq, hnc, hs1⟩
      · -- cit of a has no live quotes: a itself was removed earlier
        have haR : a ∈ s.removed := noLive_spec _ _ _ hnl a hamem rfl
        obtain ⟨m, hm, hmlt, hmtxt⟩ := hINV1 a haR
        have hmpre : m ∈ pre := item_before_mem e pre suf0 a m hsplit hm hmlt
        rw [hs1] at h
        have hrest := ih (fun y2 hy2 => hys y2 (by simp [hy2])) s s2 h hINV1 hINVP
        refine ⟨hrest.1, ?_⟩
        intro y2 hy2 htxt
        rcases List.mem_cons.mp hy2 with rfl | hin
        · -- the head pair was skipped, but the earlier pair (m, y2) removed y2
          have : y2 ∈ s.removed :=
            hINVP m hmpre y2 hyin.1 (by omega) (by rw [hmtxt, htxt])
          exact removed_persist _ _ _ _ h y2 this
        · exact hrest.2 y2 hin htxt
      · -- cit of y has no live quotes: y itself was removed earlier
        have hyR : y ∈ s.removed := noLive_spec _ _ _ hnl y hyin.1 rfl
        rw [hs1] at h
        have hrest := ih (fun y2 hy2 => hys y2 (by simp [hy2])) s s2 h hINV1 hINVP
        refine ⟨hrest.1, ?_⟩
        intro y2 hy2 htxt
        rcases List.mem_cons.mp hy2 with rfl | hin
        · exact removed_persist _ _ _ _ h y2 hyR
        · exact hrest.2 y2 hin htxt
      · -- texts differ: nothing to show for the head pair
        rw [hs1] at h
        have hrest := ih (fun y2 hy2 => hys y2 (by simp [hy2])) s s2 h hINV1 hINVP
        refine ⟨hrest.1, ?_⟩
        intro y2 hy2 htxt
        rcases List.mem_cons.mp hy2 with rfl | hin
        · exact absurd htxt hne
        · exact hrest.2 y2 hin htxt
      · -- equal texts: y is removed now
        have hINV1s1 : ∀ r ∈ s1.removed,
            ∃ m ∈ collectItems e, m.idx < r.idx ∧ m.text = r.text := by
          intro r hr
          rw [hs1] at hr
          rcases List.mem_cons.mp hr with rfl | hin
          · exact ⟨a, hamem, hyin.2, heq⟩
          · exact hINV1 r hin
        have hINVPs1 : ∀ m ∈ pre, ∀ y2 ∈ collectItems e, m.idx < y2.idx →
            m.text = y2.text → y2 ∈ s1.removed := by
          intro m hm y2 hy2 hlt htxt
          rw [hs1]
          exact List.mem_cons_of_mem _ (hINVP m hm y2 hy2 hlt htxt)
        have hrest := ih (fun y2 hy2 => hys y2 (by simp [hy2])) s1 s2 h hINV1s1 hINVPs1
        refine ⟨hrest.1, ?_⟩
        intro y2 hy2 htxt
        rcases List.mem_cons.mp hy2 with rfl | hin
        · have : y2 ∈ s1.removed := by
            rw [hs1]
            exact List.mem_cons_self y2 s.removed
          exact removed_persist _ _ _ _ h y2 this
        · exact hrest.2 y2 hin htxt

/-- Main invariant of the comparison loop of `rm_doubled_quotes`: after a
successful fold over the combinations of the remaining items, every pair
of collected items with equal raw texts has its later item removed. -/
theorem quoteMain (e : Node) :
    ∀ (L pre : List QItem) (s : QState), collectItems e = pre ++ L →
      (∀ r ∈ s.removed, ∃ m ∈ collectItems e, m.idx < r.idx ∧ m.text = r.text) →
      (∀ m ∈ pre, ∀ y ∈ collectItems e, m.idx < y.idx → m.text = y.text →
        y ∈ s.removed) →
      ∀ s2, quoteFold (collectItems e) (combinations L) s = .ok s2 →
      ∀ m ∈ pre ++ L, ∀ y ∈ collectItems e, m.idx < y.idx → m.text = y.text →
        y ∈ s2.removed := by
  intro L
  induction L with
  | nil =>
    intro pre s hsplit hINV1 hINVP s2 h m hm y hy hlt htxt
    have hs2 : s = s2 := Except.ok.inj h
    rw [← hs2]
    rw [List.append_nil] at hm
    exact hINVP m hm y hy hlt htxt
  | cons a L ih =>
    intro pre s hsplit hINV1 hINVP s2 h m hm y hy hlt htxt
    rw [combinations] at h
    obtain ⟨s1, hblockf, hrestf⟩ := quoteFold_append (collectItems e) _ _ s s2 h
    have hys : ∀ y2 ∈ L, y2 ∈ collectItems e ∧ a.idx < y2.idx := by
      intro y2 hy2
      refine ⟨?_, item_suf_gt e pre L a y2 hsplit hy2⟩
      rw [hsplit]
      simp [hy2]
    have hblock := quoteBlock e a pre L hsplit L hys s s1 hblockf hINV1 hINVP
    have hINVPs1 : ∀ m2 ∈ pre ++ [a], ∀ y2 ∈ collectItems e, m2.idx < y2.idx →
        m2.text = y2.text → y2 ∈ s1.removed := by
      intro m2 hm2 y2 hy2 hlt2 htxt2
      rcases List.mem_append.mp hm2 with hin | hin
      · exact removed_persist _ _ _ _ hblockf y2 (hINVP m2 hin y2 hy2 hlt2 htxt2)
      · rcases List.mem_singleton.mp hin with rfl
        have hy2L : y2 ∈ L := item_after_mem e pre L m2 y2 hsplit hy2 hlt2
        exact hblock.2 y2 hy2L htxt2
    have hsplit2 : collectItems e = (pre ++ [a]) ++ L := by
      rw [hsplit]
      simp
    have hmain := ih (pre ++ [a]) s1 hsplit2 hblock.1 hINVPs1 s2 hrestf
    apply hmain m ?_ y hy hlt htxt
    rcases List.mem_append.mp hm with hin | hin
    · simp [hin]
    · rcases List.mem_cons.mp hin with rfl | hin2
      · simp
      · simp [hin2]

/-- Claim C4 (amended): `rm_doubled_quotes` collects every (Cit, Quote) pair
where the Cit is a direct child of a Sense of the Entry and the Quote a
direct child of that Cit, in document order (`collectItems`); whenever the
call completes without raising, for every unordered pair of distinct
collected items whose Quote texts are exactly equal with no trimming, the
second item's Quote has been removed from its owning Cit. -/
theorem claim4_amended_thm (e : Node) (s2 : QState) (a b : QItem)
    (hf : quoteFoldOut e = .ok s2)
    (ha : a ∈ collectItems e) (hb : b ∈ collectItems e)
    (hab : a.idx < b.idx) (ht : a.text = b.text) :
    b ∈ s2.removed ∧
    rm_doubled_quotes e = .ok (applyQuoteRemovals e s2.removed, some s2.changed) := by
  constructor
  · have hmain := quoteMain e (collectItems e) [] ⟨[], false⟩ rfl
      (fun r hr => (List.not_mem_nil r hr).elim)
      (fun m hm => (List.not_mem_nil m hm).elim)
      s2 hf
    exact hmain a ha b hb hab ht
  · have hne : a ≠ b := by
      intro he
      rw [he] at hab
      exact Nat.lt_irrefl b.idx hab
    have hlen : ¬(collectItems e).length ≤ 1 := by
      intro hle
      cases hl : collectItems e with
      | nil =>
        rw [hl] at ha
        cases ha
      | cons x t =>
        cases ht2 : t with
        | nil =>
          rw [hl, ht2] at ha hb
          rcases List.mem_singleton.mp ha with rfl
          rcases List.mem_singleton.mp hb with rfl
          exact hne rfl
        | cons x2 t2 =>
          rw [hl, ht2] at hle
          simp at hle
    rw [rm_doubled_quotes, if_neg hlen, hf]

/-- C4 witness input: two senses with direct cits holding equal quotes. -/
def claim4wEntry : Node :=
  elemN "entry" [elemN "sense" [elemN "cit" [elemT "quote" "x"]],
    elemN "sense" [elemN "cit" [elemT "quote" "x"]]]

/-- Claim C4, witness: the amended theorem applied to the concrete entry; the
second collected quote is removed. -/
theorem claim4_witness :
    (⟨1, 0, 0, some "x", 1⟩ : QItem) ∈
      (QState.mk [⟨1, 0, 0, some "x", 1⟩] true).removed ∧
    rm_doubled_quotes claim4wEntry =
      .ok (applyQuoteRemovals claim4wEntry
        (QState.mk [⟨1, 0, 0, some "x", 1⟩] true).removed, some true) :=
  claim4_amended_thm claim4wEntry ⟨[⟨1, 0, 0, some "x", 1⟩], true⟩
    ⟨0, 0, 0, some "x", 0⟩ ⟨1, 0, 0, some "x", 1⟩ rfl
    (by decide) (by decide) (by decide) rfl
